import Mathlib

/-!
Verification of the blurhash encoder (`blurhash.go`).

Shallow embedding conventions:
* Go `float64` arithmetic is modelled by the real numbers `ℝ`.
* Go `int` / `uint32` values that stay small are modelled by `ℕ` (or `ℤ` where
  Go code can produce negative intermediates).
* Go float-to-int conversion truncates toward zero; it is modelled by `trunc`.
* A Go runtime panic (out-of-range slice expression or index) is modelled by
  `Option.none`; a normal return is `Option.some`.
* An `image.Image` is modelled by `Img`: its bounds minimum, its bounds
  width/height (`Bounds().Dx()` / `Bounds().Dy()`), and a total pixel accessor
  returning the four 16-bit channel samples of `At(x, y).RGBA()`.
-/

namespace blurhash

/-- The four 16-bit channel samples returned by a Go `color.Color.RGBA()` call. -/
structure RGBA16 where
  r : ℕ
  g : ℕ
  b : ℕ
  a : ℕ
deriving DecidableEq

/-- Model of a Go `image.Image`: bounds minimum point, bounds size, and the
per-pixel accessor (absolute coordinates, as in Go). -/
structure Img where
  minX : ℤ
  minY : ℤ
  width : ℕ
  height : ℕ
  At : ℤ → ℤ → RGBA16

/-- `clamp` from blurhash.go: `math.Max(min, math.Min(max, x))`. -/
noncomputable def clamp (lo hi x : ℝ) : ℝ := max lo (min hi x)

/-- Go float-to-int conversion: truncation toward zero. -/
noncomputable def trunc (x : ℝ) : ℤ := if x < 0 then ⌈x⌉ else ⌊x⌋

/-- `signSqrt` from blurhash.go: `math.Copysign(math.Sqrt(math.Abs(value)), value)`. -/
noncomputable def signSqrt (v : ℝ) : ℝ := if v < 0 then -Real.sqrt |v| else Real.sqrt |v|

/-- Entry `i` of the `linearTable` built by `buildLinearTable`:
`v := i/255`; if `v ≤ 0.04045` then `v/12.92` else `((v+0.055)/1.055)^2.4`. -/
noncomputable def linearTable (i : ℕ) : ℝ :=
  let v : ℝ := (i : ℝ) / 255
  if v ≤ 0.04045 then v / 12.92 else ((v + 0.055) / 1.055) ^ (2.4 : ℝ)

/-- `linear.sRGB()` from blurhash.go: clamp the input to `[0,1]`, then the
piecewise inverse-gamma transform, converted to a byte (`uint8` conversion is
modelled as truncation; the value is proved to lie in `[0, 255.5]`). -/
noncomputable def linearSRGB (v0 : ℝ) : ℕ :=
  let v := clamp 0 1 v0
  if v ≤ 0.0031308 then
    (trunc (clamp 0 255 (v * 12.92 * 255 + 0.5))).toNat
  else
    (trunc (clamp 0 255 (1.055 * v ^ ((1 : ℝ) / 2.4) - 0.055) * 255 + 0.5)).toNat

/-- Modelled from the spec (§4.1 `toGamma`): input clamped to `[0,1]`, the
piecewise formula with threshold `0.0031308`, rounded down, and the result
clamped to `[0,255]`.  Used to compare the code's `linear.sRGB()` against the
spec's description. -/
noncomputable def toGammaSpec (v0 : ℝ) : ℕ :=
  let v := clamp 0 1 v0
  let y := if v ≤ 0.0031308 then v * 12.92 * 255 + 0.5
           else (1.055 * v ^ ((1 : ℝ) / 2.4) - 0.055) * 255 + 0.5
  (min 255 (max 0 (trunc y))).toNat

/-- `factor` from blurhash.go: one accumulator record, three channels. -/
@[ext]
structure factor where
  r : ℝ
  g : ℝ
  b : ℝ

/-- `(*factor).Scale(v)` from blurhash.go. -/
noncomputable def scaleFactor (v : ℝ) (f : factor) : factor :=
  { r := f.r * v, g := f.g * v, b := f.b * v }

/-- `rotate` from blurhash.go (angle-addition identity). -/
noncomputable def rotate (sinA cosA sinB cosB : ℝ) : ℝ × ℝ :=
  (sinA * cosB + cosA * sinB, cosA * cosB - sinA * sinB)

/-- The running `(sin, cos)` pair maintained by `Append` for one frequency
index `idx` of one axis, after the update for step `t` (row `y` for the
vertical axis, column `x` for the horizontal one): reset to `(0, 1)` at the
first step or at frequency index 0, otherwise rotated by the fixed per-step
increment `math.Sincos(step * idx)`. -/
noncomputable def cosState (step : ℝ) (idx : ℕ) : ℕ → ℝ × ℝ
  | 0 => (0, 1)
  | t + 1 =>
    if idx = 0 then (0, 1)
    else rotate (cosState step idx t).1 (cosState step idx t).2
      (Real.sin (step * idx)) (Real.cos (step * idx))

/-- The three linear-light channel values the pixel loop derives from one
accessor result: `sRGB((p >> 8) & 0xff).linear()` per channel. -/
noncomputable def linTriple (c : RGBA16) : factor :=
  { r := linearTable ((c.r >>> 8) &&& 255)
    g := linearTable ((c.g >>> 8) &&& 255)
    b := linearTable ((c.b >>> 8) &&& 255) }

/-- The basis weight `yCos[i] * xCos[j]` used at pixel `(x, y)` for the factor
at flat index `k = i*w + j` (so `i = k / w`, `j = k % w`). -/
noncomputable def basisAt (img : Img) (w k x y : ℕ) : ℝ :=
  (cosState (Real.pi / (img.height : ℝ)) (k / w) y).2 *
    (cosState (Real.pi / (img.width : ℝ)) (k % w) x).2

/-- `factors[k]` after the pixel loop of `Append`: the accumulated sum over all
pixels, row-major, of basis weight times linear color. -/
noncomputable def factorAcc (img : Img) (w k : ℕ) : factor :=
  { r := ∑ y ∈ Finset.range img.height, ∑ x ∈ Finset.range img.width,
      basisAt img w k x y * (linTriple (img.At (x : ℤ) (y : ℤ))).r
    g := ∑ y ∈ Finset.range img.height, ∑ x ∈ Finset.range img.width,
      basisAt img w k x y * (linTriple (img.At (x : ℤ) (y : ℤ))).g
    b := ∑ y ∈ Finset.range img.height, ∑ x ∈ Finset.range img.width,
      basisAt img w k x y * (linTriple (img.At (x : ℤ) (y : ℤ))).b }

/-- Modelled from the spec (§4.3): the accumulator for frequency pair `(i, j)`
written with direct cosine evaluation,
`cos(π·i·y/imgH) · cos(π·j·x/imgW) · linearColor(x, y)` summed over all
pixels.  Used to compare the code's recurrence against the spec's formula. -/
noncomputable def factorSpec (img : Img) (i j : ℕ) : factor :=
  { r := ∑ y ∈ Finset.range img.height, ∑ x ∈ Finset.range img.width,
      Real.cos (Real.pi * i * y / (img.height : ℝ)) *
        Real.cos (Real.pi * j * x / (img.width : ℝ)) *
        (linTriple (img.At (x : ℤ) (y : ℤ))).r
    g := ∑ y ∈ Finset.range img.height, ∑ x ∈ Finset.range img.width,
      Real.cos (Real.pi * i * y / (img.height : ℝ)) *
        Real.cos (Real.pi * j * x / (img.width : ℝ)) *
        (linTriple (img.At (x : ℤ) (y : ℤ))).g
    b := ∑ y ∈ Finset.range img.height, ∑ x ∈ Finset.range img.width,
      Real.cos (Real.pi * i * y / (img.height : ℝ)) *
        Real.cos (Real.pi * j * x / (img.width : ℝ)) *
        (linTriple (img.At (x : ℤ) (y : ℤ))).b }

/-- The DC factor of `Append`: `factors[0]` scaled by `1 / float64(imgH*imgW)`. -/
noncomputable def dcFactor (img : Img) (w h : ℕ) : factor :=
  scaleFactor (1 / ((img.height * img.width : ℕ) : ℝ)) (factorAcc img w 0)

/-- The AC factors of `Append`: `factors[1:]`, each scaled by
`2 / float64(imgH*imgW)`.  (`h` is kept in the signature because the list
length `w*h - 1` depends on it.) -/
noncomputable def acFactors (img : Img) (w h : ℕ) : List factor :=
  (List.range (w * h - 1)).map
    (fun t => scaleFactor (2 / ((img.height * img.width : ℕ) : ℝ)) (factorAcc img w (t + 1)))

/-- One step of the `actualMax` loop in `Append`:
`actualMax = Max(|f.r|, actualMax)`, then `g`, then `b`. -/
noncomputable def acStep (m : ℝ) (f : factor) : ℝ :=
  max |f.b| (max |f.g| (max |f.r| m))

/-- `actualMax` from `Append`: the running maximum over the AC factors,
starting from 0. -/
noncomputable def actualMaxOf (ac : List factor) : ℝ :=
  ac.foldl acStep 0

/-- `quantisedMax` from `Append`: `int(clamp(0, 82, math.Floor(actualMax*166-0.5)))`. -/
noncomputable def quantisedMaxOf (ac : List factor) : ℕ :=
  (trunc (clamp 0 82 ((⌊actualMaxOf ac * 166 - 0.5⌋ : ℤ) : ℝ))).toNat

/-- The scale value `max` used by `Append` for AC encoding:
`(quantisedMax+1)/166` when there are AC terms, otherwise 1. -/
noncomputable def maxValOf (ac : List factor) : ℝ :=
  if 0 < ac.length then ((quantisedMaxOf ac : ℝ) + 1) / 166 else 1

/-- The scale digit `Append` writes: `quantisedMax` when there are AC terms,
otherwise 0. -/
noncomputable def scaleDigitOf (ac : List factor) : ℕ :=
  if 0 < ac.length then quantisedMaxOf ac else 0

/-- One quantised AC channel from `encodeAC`:
`int(clamp(0, 18, math.Floor(signSqrt(v/max)*9+9.5)))`. -/
noncomputable def quantChan (v maxv : ℝ) : ℕ :=
  (trunc (clamp 0 18 ((⌊signSqrt (v / maxv) * 9 + 9.5⌋ : ℤ) : ℝ))).toNat

/-- `encodeAC` from blurhash.go: `quantR*(19*19) + quantG*19 + quantB`. -/
noncomputable def encodeAC (ac : factor) (maxv : ℝ) : ℕ :=
  quantChan ac.r maxv * (19 * 19) + quantChan ac.g maxv * 19 + quantChan ac.b maxv

/-- `encodeDC` from blurhash.go: `(roundedR << 16) | (roundedG << 8) | roundedB`. -/
noncomputable def encodeDC (dc : factor) : ℕ :=
  linearSRGB dc.r <<< 16 ||| linearSRGB dc.g <<< 8 ||| linearSRGB dc.b

/-- The 83-character base-83 alphabet from blurhash.go, as ASCII codes. -/
def base83chars : List ℕ :=
  "0123456789ABCDEFGHIJKLMNOPQRSTUVWXYZabcdefghijklmnopqrstuvwxyz#$%*+,-.:;=?@[]^_\x7b|\x7d~".toList.map Char.toNat

/-- `base83chars[n]` (always indexed in range by the encoder). -/
def base83char (n : ℕ) : ℕ := base83chars.getD n 0

/-- `append1Base83` from blurhash.go: append `base83chars[v%83]`. -/
def append1Base83 (dst : List ℕ) (v : ℕ) : List ℕ :=
  dst ++ [base83char (v % 83)]

/-- `append2Base83` from blurhash.go. -/
def append2Base83 (dst : List ℕ) (v : ℕ) : List ℕ :=
  append1Base83 (append1Base83 dst (v / 83)) v

/-- `append4Base83` from blurhash.go. -/
def append4Base83 (dst : List ℕ) (v : ℕ) : List ℕ :=
  append2Base83 (append2Base83 dst (v / (83 * 83))) v

/-- The two big-endian base-83 digits of `v` (spec form, §4.5). -/
def digits2 (v : ℕ) : List ℕ :=
  [base83char (v / 83 % 83), base83char (v % 83)]

/-- The four big-endian base-83 digits of `v` (spec form, §4.5). -/
def digits4 (v : ℕ) : List ℕ :=
  [base83char (v / 83 ^ 3 % 83), base83char (v / 83 ^ 2 % 83),
   base83char (v / 83 % 83), base83char (v % 83)]

/-- Lines 87-116 of `Append` (everything after the pixel loop): scale the
factors, write the packed shape, the scale digit, the DC and the ACs. -/
noncomputable def appendBody (dst : List ℕ) (img : Img) (w h : ℕ) : List ℕ :=
  let dc := dcFactor img w h
  let ac := acFactors img w h
  let dst1 := append1Base83 dst ((h - 1) * 9 + (w - 1))
  let dst2 := append1Base83 dst1 (scaleDigitOf ac)
  let dst3 := append4Base83 dst2 (encodeDC dc)
  ac.foldl (fun d f => append2Base83 d (encodeAC f (maxValOf ac))) dst3

/-- `Append` from blurhash.go.  The function performs no explicit validation;
out-of-range component counts make one of its fixed-capacity slice
expressions (`make([]factor, 81)[:w*h]`, `make([]float64, 9)[:h]`,
`make([]float64, 9)[:w]`) or the `factors[0]` read after the pixel loop panic
at runtime, modelled as `none`. -/
noncomputable def Append (dst : List ℕ) (img : Img) (w h : ℕ) : Option (List ℕ) :=
  if 81 < w * h then none
  else if 9 < h then none
  else if 9 < w then none
  else if w * h = 0 then none
  else some (appendBody dst img w h)

/-- `Encode` from blurhash.go: `string(Append(make([]byte, 0, EncodedLen(w, h)), img, w, h))`. -/
noncomputable def Encode (img : Img) (w h : ℕ) : Option (List ℕ) :=
  Append [] img w h

/-- `EncodedLen` from blurhash.go. -/
def EncodedLen (w h : ℕ) : ℕ :=
  1 + 1 + 4 + (w * h - 1) * 2

/-- A concrete 4×4 all-black image with bounds starting at the origin. -/
def constImg : Img :=
  { minX := 0, minY := 0, width := 4, height := 4, At := fun _ _ => ⟨0, 0, 0, 0⟩ }

/-- A concrete image whose bounds have zero width. -/
def zeroWidthImg : Img :=
  { minX := 0, minY := 0, width := 0, height := 4, At := fun _ _ => ⟨0, 0, 0, 0⟩ }

/-- A concrete 2×2 image whose bounds minimum is `(1, 0)`, not the origin. -/
def shiftedImg : Img :=
  { minX := 1, minY := 0, width := 2, height := 2, At := fun _ _ => ⟨0, 0, 0, 0⟩ }

/-- The set of absolute coordinates at which the pixel loop of `Append`
queries the accessor: `[0, Dx) × [0, Dy)`. -/
def queriedSet (img : Img) : Set (ℤ × ℤ) :=
  {p | 0 ≤ p.1 ∧ p.1 < (img.width : ℤ) ∧ 0 ≤ p.2 ∧ p.2 < (img.height : ℤ)}

/-- The image's own coordinate rectangle `[Min, Min+size)`. -/
def rectSet (img : Img) : Set (ℤ × ℤ) :=
  {p | img.minX ≤ p.1 ∧ p.1 < img.minX + (img.width : ℤ) ∧
       img.minY ≤ p.2 ∧ p.2 < img.minY + (img.height : ℤ)}

end blurhash

/-!
Model of the Go standard library types used by `fastAccessor` for the
`*image.YCbCr` case: `image.YCbCr` (planar storage, subsampled chroma),
its `YOffset`/`COffset` index computations, the bounds-checked generic
`At`, and `color.YCbCr.RGBA()`.  All are modelled from the Go standard
library sources (`image/ycbcr.go`, `image/color/ycbcr.go`); byte-slice
reads return `none` on an out-of-range index (a Go panic).
-/

namespace goimage

/-- `image.YCbCrSubsampleRatio`. -/
inductive SubsampleRatio
  | r444 | r422 | r420 | r440 | r411 | r410
deriving DecidableEq

/-- Model of `image.YCbCr`. -/
structure YCbCrImg where
  minX : ℤ
  minY : ℤ
  maxX : ℤ
  maxY : ℤ
  yStride : ℤ
  cStride : ℤ
  ratio : SubsampleRatio
  ydata : List ℕ
  cbdata : List ℕ
  crdata : List ℕ

/-- Go arithmetic right shift on a signed int: floor division by `2^k`. -/
def sar (x : ℤ) (k : ℕ) : ℤ := Int.fdiv x (2 ^ k)

/-- A Go byte-slice read `l[i]`: `none` (panic) when `i` is out of range. -/
def readByte (l : List ℕ) (i : ℤ) : Option ℕ :=
  if 0 ≤ i then l.get? i.toNat else none

/-- `(*image.YCbCr).YOffset` from the Go standard library. -/
def yOffset (p : YCbCrImg) (x y : ℤ) : ℤ :=
  (y - p.minY) * p.yStride + (x - p.minX)

/-- `(*image.YCbCr).COffset` from the Go standard library (Go `/` on ints
truncates toward zero, i.e. `Int.tdiv`). -/
def cOffset (p : YCbCrImg) (x y : ℤ) : ℤ :=
  match p.ratio with
  | .r422 => (y - p.minY) * p.cStride + (Int.tdiv x 2 - Int.tdiv p.minX 2)
  | .r420 => (Int.tdiv y 2 - Int.tdiv p.minY 2) * p.cStride + (Int.tdiv x 2 - Int.tdiv p.minX 2)
  | .r440 => (Int.tdiv y 2 - Int.tdiv p.minY 2) * p.cStride + (x - p.minX)
  | .r411 => (y - p.minY) * p.cStride + (Int.tdiv x 4 - Int.tdiv p.minX 4)
  | .r410 => (Int.tdiv y 2 - Int.tdiv p.minY 2) * p.cStride + (Int.tdiv x 4 - Int.tdiv p.minX 4)
  | .r444 => (y - p.minY) * p.cStride + (x - p.minX)

/-- The `(yShift, xShift)` pair chosen by the `switch img.SubsampleRatio`
in `fastAccessor` (blurhash.go lines 211-223; both default to 0). -/
def shiftsOf (r : SubsampleRatio) : ℕ × ℕ :=
  match r with
  | .r422 => (0, 1)
  | .r420 => (1, 1)
  | .r440 => (1, 0)
  | .r411 => (0, 2)
  | .r410 => (1, 2)
  | .r444 => (0, 0)

/-- One channel of `color.YCbCr.RGBA()`: the Go test
`uint32(r)&0xff000000 == 0` holds exactly when `0 ≤ r < 2^24` (all
intermediates fit in an `int32`), in which case `r >>= 8`; otherwise the
channel saturates to 0 (negative) or `0xffff` (overflow). -/
def clampChan (v : ℤ) : ℤ :=
  if 0 ≤ v ∧ v < 16777216 then Int.tdiv v 256
  else if v < 0 then 0 else 65535

/-- `color.YCbCr.RGBA()` from the Go standard library
(`yy1 := int32(c.Y) * 0x10101`, fixed-point BT.601 conversion). -/
def yCbCrToRGBA (yv cb cr : ℕ) : blurhash.RGBA16 :=
  let yy1 : ℤ := (yv : ℤ) * 65793
  let cb1 : ℤ := (cb : ℤ) - 128
  let cr1 : ℤ := (cr : ℤ) - 128
  { r := (clampChan (yy1 + 91881 * cr1)).toNat
    g := (clampChan (yy1 - 22554 * cb1 - 46802 * cr1)).toNat
    b := (clampChan (yy1 + 116130 * cb1)).toNat
    a := 65535 }

/-- The specialized `*image.YCbCr` accessor returned by `fastAccessor`
(blurhash.go lines 224-228): `yi := img.YOffset(x, y)`, shift-based chroma
index `ci`, and `color.YCbCr{...}.RGBA()` on the three bytes. -/
def fastAtYCbCr (p : YCbCrImg) (x y : ℤ) : Option blurhash.RGBA16 := do
  let s := shiftsOf p.ratio
  let yv ← readByte p.ydata (yOffset p x y)
  let ci := (sar y s.1 - sar p.minY s.1) * p.cStride + (sar x s.2 - sar p.minX s.2)
  let cb ← readByte p.cbdata ci
  let cr ← readByte p.crdata ci
  pure (yCbCrToRGBA yv cb cr)

/-- The generic per-pixel query `img.At(x, y).RGBA()` for a `*image.YCbCr`
(standard library `YCbCrAt`: bounds check, then `YOffset`/`COffset` reads). -/
def atYCbCr (p : YCbCrImg) (x y : ℤ) : Option blurhash.RGBA16 :=
  if p.minX ≤ x ∧ x < p.maxX ∧ p.minY ≤ y ∧ y < p.maxY then do
    let yv ← readByte p.ydata (yOffset p x y)
    let cb ← readByte p.cbdata (cOffset p x y)
    let cr ← readByte p.crdata (cOffset p x y)
    pure (yCbCrToRGBA yv cb cr)
  else pure (yCbCrToRGBA 0 0 0)

/-- A legal 4:2:2 `image.YCbCr` exactly as `image.NewYCbCr` lays it out for
bounds `Rect(-1, 0, 1, 1)`: `YStride = 2`, `CStride = (1+1)/2 - (-1)/2 = 1`,
two luma bytes, one chroma byte per plane. -/
def badImg422 : YCbCrImg :=
  { minX := -1, minY := 0, maxX := 1, maxY := 1
    yStride := 2, cStride := 1, ratio := .r422
    ydata := [100, 100], cbdata := [128], crdata := [128] }

end goimage

namespace blurhash

/-! Helper lemmas shared by several claims. -/

theorem append_valid (dst : List ℕ) (img : Img) (w h : ℕ)
    (hw1 : 1 ≤ w) (hw9 : w ≤ 9) (hh1 : 1 ≤ h) (hh9 : h ≤ 9) :
    Append dst img w h = some (appendBody dst img w h) := by
  have h81 : ¬ 81 < w * h := by
    have := Nat.mul_le_mul hw9 hh9
    omega
  have h0 : w * h ≠ 0 := Nat.mul_ne_zero (by omega) (by omega)
  unfold Append
  rw [if_neg h81, if_neg (by omega : ¬ 9 < h), if_neg (by omega : ¬ 9 < w), if_neg h0]

theorem append2_digits (dst : List ℕ) (v : ℕ) :
    append2Base83 dst v = dst ++ digits2 v := by
  simp [append2Base83, append1Base83, digits2]

theorem digits2_length (v : ℕ) : (digits2 v).length = 2 := rfl

theorem digits4_length (v : ℕ) : (digits4 v).length = 4 := rfl

theorem append4_digits (dst : List ℕ) (v : ℕ) :
    append4Base83 dst v = dst ++ digits4 v := by
  have h3 : v / 83 ^ 2 / 83 = v / 83 ^ 3 := by
    rw [Nat.div_div_eq_div_mul]; norm_num
  have h2 : v / (83 * 83) = v / 83 ^ 2 := by norm_num
  simp [append4Base83, append2_digits, digits2, digits4, h3, h2]

theorem foldl_append2 (enc : factor → ℕ) (ac : List factor) :
    ∀ d : List ℕ,
      ac.foldl (fun d f => append2Base83 d (enc f)) d
        = d ++ ac.flatMap (fun f => digits2 (enc f)) := by
  induction ac with
  | nil => intro d; simp
  | cons f t ih =>
      intro d
      rw [List.foldl_cons, ih, append2_digits, List.flatMap_cons, List.append_assoc]

theorem appendBody_concat (dst : List ℕ) (img : Img) (w h : ℕ) :
    appendBody dst img w h =
      dst ++ [base83char (((h - 1) * 9 + (w - 1)) % 83)]
          ++ [base83char (scaleDigitOf (acFactors img w h) % 83)]
          ++ digits4 (encodeDC (dcFactor img w h))
          ++ (acFactors img w h).flatMap
              (fun f => digits2 (encodeAC f (maxValOf (acFactors img w h)))) := by
  simp only [appendBody, foldl_append2, append4_digits, append1Base83, List.append_assoc]

theorem flatMap_digits2_length (enc : factor → ℕ) (ac : List factor) :
    (ac.flatMap (fun f => digits2 (enc f))).length = 2 * ac.length := by
  induction ac with
  | nil => rfl
  | cons f t ih =>
      rw [List.flatMap_cons, List.length_append, ih, digits2_length, List.length_cons]
      omega

theorem acFactors_length (img : Img) (w h : ℕ) :
    (acFactors img w h).length = w * h - 1 := by
  simp [acFactors]

theorem appendBody_length (dst : List ℕ) (img : Img) (w h : ℕ) :
    (appendBody dst img w h).length = dst.length + 6 + 2 * (w * h - 1) := by
  rw [appendBody_concat]
  simp only [List.length_append, digits4_length, flatMap_digits2_length, acFactors_length,
    List.length_singleton]
  try omega

/-! Claim C1. -/

/-- C1 (counterexample): the encoder does not reject invalid inputs with a
typed failure.  A call with `w = 10` (outside `[1,9]`) panics at the slice
expression `make([]float64, 9)[:w]` (modelled as `none`), and a call on an
image of zero width with valid `w = h = 1` is not rejected at all: `Append`
runs to completion and returns an encoded byte string. -/
theorem append_rejects_nothing_counterexample :
    Append [] constImg 10 1 = none ∧ ∃ l, Append [] zeroWidthImg 1 1 = some l := by
  constructor
  · unfold Append; norm_num
  · exact ⟨appendBody [] zeroWidthImg 1 1, by unfold Append; norm_num⟩

/-- C1 (amended): `Append` performs no input validation and has no typed
error result.  Component counts outside `[1,9]` cause a runtime panic
(an out-of-range slice expression or index, modelled as `none`) — for
`w*h = 0` only after the pixel loop has already run — while for any
`w, h ∈ [1,9]` the call returns an encoded byte string even when the image
has zero width or height. -/
theorem append_no_validation (dst : List ℕ) (img : Img) (w h : ℕ) :
    ((w = 0 ∨ h = 0 ∨ 9 < w ∨ 9 < h) → Append dst img w h = none) ∧
    (1 ≤ w → w ≤ 9 → 1 ≤ h → h ≤ 9 → ∃ l, Append dst img w h = some l) := by
  constructor
  · intro hbad
    unfold Append
    rcases hbad with h0 | h0 | h0 | h0
    · subst h0; simp
    · subst h0; simp
    · split_ifs <;> (try rfl) <;> omega
    · split_ifs <;> (try rfl) <;> omega
  · intro hw1 hw9 hh1 hh9
    exact ⟨_, append_valid dst img w h hw1 hw9 hh1 hh9⟩

/-- C1 (witness). -/
theorem append_no_validation_witness :
    Append [] zeroWidthImg 10 1 = none ∧ ∃ l, Append [] zeroWidthImg 1 1 = some l :=
  ⟨(append_no_validation [] zeroWidthImg 10 1).1 (by norm_num),
   (append_no_validation [] zeroWidthImg 1 1).2 (by norm_num) (by norm_num) (by norm_num)
     (by norm_num)⟩

/-! Claim C2. -/

/-- C2: for every image with positive dimensions and every `w, h ∈ [1,9]`,
`Encode` returns a string whose length is `EncodedLen w h`, and
`EncodedLen w h = 1 + 1 + 4 + 2*(w*h - 1)`. -/
theorem encode_length_eq_encodedLen (img : Img) (w h : ℕ)
    (hiw : 0 < img.width) (hih : 0 < img.height)
    (hw1 : 1 ≤ w) (hw9 : w ≤ 9) (hh1 : 1 ≤ h) (hh9 : h ≤ 9) :
    ∃ l, Encode img w h = some l ∧ l.length = EncodedLen w h ∧
      EncodedLen w h = 1 + 1 + 4 + 2 * (w * h - 1) := by
  refine ⟨appendBody [] img w h, ?_, ?_, by unfold EncodedLen; omega⟩
  · unfold Encode
    exact append_valid [] img w h hw1 hw9 hh1 hh9
  · rw [appendBody_length]
    unfold EncodedLen
    simp
    omega

/-! Claim C3. -/

theorem cosState_eq (s : ℝ) (idx : ℕ) :
    ∀ t : ℕ, cosState s idx t = (Real.sin (s * idx * t), Real.cos (s * idx * t))
  | 0 => by simp [cosState]
  | t + 1 => by
    by_cases h : idx = 0
    · subst h
      simp [cosState]
    · rw [show cosState s idx (t + 1)
            = rotate (cosState s idx t).1 (cosState s idx t).2
                (Real.sin (s * idx)) (Real.cos (s * idx)) from by
          simp [cosState, h]]
      rw [cosState_eq s idx t]
      unfold rotate
      simp only
      have harg : s * idx * t + s * idx = s * idx * (t + 1 : ℕ) := by
        push_cast
        ring
      rw [← Real.sin_add, ← Real.cos_add, harg]

/-- C3: every accumulator `factors[i*w+j]` holds, per channel, the sum over
all pixels of `cos(π·i·y/imgH)·cos(π·j·x/imgW)·linearColor(x,y)` — the
angle-accumulation recurrence (`cosState`, built from the reset rule and
`rotate`) produces exactly those cosines — and `Append` then scales the DC
accumulator by `1/(imgH·imgW)` and every AC accumulator by `2/(imgH·imgW)`. -/
theorem factorAcc_recurrence (img : Img) (w h i j : ℕ)
    (hi : i < h) (hj : j < w) :
    factorAcc img w (i * w + j) = factorSpec img i j ∧
    dcFactor img w h
      = scaleFactor (1 / ((img.height * img.width : ℕ) : ℝ)) (factorAcc img w 0) ∧
    acFactors img w h
      = (List.range (w * h - 1)).map
          (fun t => scaleFactor (2 / ((img.height * img.width : ℕ) : ℝ))
            (factorAcc img w (t + 1))) := by
  refine ⟨?_, rfl, rfl⟩
  have hw : 0 < w := lt_of_le_of_lt (Nat.zero_le j) hj
  have hdiv : (i * w + j) / w = i := by
    rw [Nat.mul_comm i w, Nat.mul_add_div hw, Nat.div_eq_of_lt hj, Nat.add_zero]
  have hmod : (i * w + j) % w = j := by
    rw [Nat.mul_comm i w, Nat.mul_add_mod, Nat.mod_eq_of_lt hj]
  have hb : ∀ x y : ℕ, basisAt img w (i * w + j) x y
      = Real.cos (Real.pi * i * y / (img.height : ℝ))
        * Real.cos (Real.pi * j * x / (img.width : ℝ)) := by
    intro x y
    unfold basisAt
    rw [hdiv, hmod, cosState_eq, cosState_eq]
    simp only
    congr 1
    · congr 1
      ring
    · congr 1
      ring
  refine factor.ext ?_ ?_ ?_ <;>
    · simp only [factorAcc, factorSpec]
      exact Finset.sum_congr rfl fun y _ => Finset.sum_congr rfl fun x _ => by rw [hb]

/-- C3 (witness). -/
theorem factorAcc_recurrence_witness :
    factorAcc constImg 1 (0 * 1 + 0) = factorSpec constImg 0 0 ∧
    dcFactor constImg 1 1
      = scaleFactor (1 / ((constImg.height * constImg.width : ℕ) : ℝ)) (factorAcc constImg 1 0) ∧
    acFactors constImg 1 1
      = (List.range (1 * 1 - 1)).map
          (fun t => scaleFactor (2 / ((constImg.height * constImg.width : ℕ) : ℝ))
            (factorAcc constImg 1 (t + 1))) :=
  factorAcc_recurrence constImg 1 1 0 0 (by norm_num) (by norm_num)

/-! Clamp and truncation bounds, shared by C4, C5, C6, C7. -/

theorem clamp_zero_nonneg (hi x : ℝ) : 0 ≤ clamp 0 hi x := le_max_left _ _

theorem trunc_clamp_eq_floor (hi x : ℝ) : trunc (clamp 0 hi x) = ⌊clamp 0 hi x⌋ := by
  unfold trunc
  rw [if_neg (not_lt.mpr (clamp_zero_nonneg hi x))]

theorem trunc_clamp_toNat_le (c : ℝ) (n : ℕ) (x : ℝ) (hc : c ≤ n) :
    (trunc (clamp 0 c x)).toNat ≤ n := by
  have h1 : clamp 0 c x ≤ (n : ℝ) :=
    max_le (Nat.cast_nonneg n) (le_trans (min_le_left _ _) hc)
  rw [trunc_clamp_eq_floor, Int.toNat_le]
  calc ⌊clamp 0 c x⌋ ≤ ⌊((n : ℕ) : ℝ)⌋ := Int.floor_mono h1
    _ = (n : ℤ) := Int.floor_natCast n

/-! Claim C5. -/

/-- C5: each AC channel is divided by `max`, passed through `signSqrt`,
scaled by 9, offset by 9.5, floored and clamped to `[0,18]` (this is
`quantChan` by definition), the three digits are combined as
`qR·19² + qG·19 + qB`, every per-channel digit lies in `[0,18]`, and every
encoded AC integer lies in `[0, 6858]`. -/
theorem encodeAC_range (f : factor) (m : ℝ) :
    quantChan f.r m ≤ 18 ∧ quantChan f.g m ≤ 18 ∧ quantChan f.b m ≤ 18 ∧
    encodeAC f m = quantChan f.r m * 19 ^ 2 + quantChan f.g m * 19 + quantChan f.b m ∧
    encodeAC f m ≤ 6858 := by
  have hb : ∀ v : ℝ, quantChan v m ≤ 18 := fun v =>
    trunc_clamp_toNat_le 18 18 _ (by norm_num)
  refine ⟨hb f.r, hb f.g, hb f.b, by unfold encodeAC; norm_num, ?_⟩
  have h1 := hb f.r
  have h2 := hb f.g
  have h3 := hb f.b
  unfold encodeAC
  omega

/-! Claim C4. -/

theorem acStep_le (m : ℝ) (f : factor) : m ≤ acStep m f :=
  le_trans (le_max_right _ _) (le_trans (le_max_right _ _) (le_max_right _ _))

theorem foldl_acStep_mono (l : List factor) : ∀ m : ℝ, m ≤ l.foldl acStep m := by
  induction l with
  | nil => intro m; simp
  | cons f t ih => intro m; exact le_trans (acStep_le m f) (ih _)

theorem foldl_acStep_ub (l : List factor) : ∀ m : ℝ, ∀ f ∈ l,
    |f.r| ≤ l.foldl acStep m ∧ |f.g| ≤ l.foldl acStep m ∧ |f.b| ≤ l.foldl acStep m := by
  induction l with
  | nil => intro m f hf; cases hf
  | cons g t ih =>
    intro m f hf
    rw [List.foldl_cons]
    rcases List.mem_cons.mp hf with h | h
    · subst h
      have hrest := foldl_acStep_mono t (acStep m f)
      refine ⟨le_trans ?_ hrest, le_trans ?_ hrest, le_trans ?_ hrest⟩
      · exact le_trans (le_max_left _ _) (le_trans (le_max_right _ _) (le_max_right _ _))
      · exact le_trans (le_max_left _ _) (le_max_right _ _)
      · exact le_max_left _ _
    · exact ih _ f h

theorem foldl_acStep_mem (l : List factor) : ∀ m : ℝ,
    l.foldl acStep m = m ∨ ∃ f ∈ l, l.foldl acStep m = |f.r| ∨
      l.foldl acStep m = |f.g| ∨ l.foldl acStep m = |f.b| := by
  induction l with
  | nil => intro m; left; rfl
  | cons g t ih =>
    intro m
    rw [List.foldl_cons]
    rcases ih (acStep m g) with h | ⟨f, hf, hc⟩
    · have hcases : acStep m g = |g.b| ∨ acStep m g = |g.g| ∨
          acStep m g = |g.r| ∨ acStep m g = m := by
        unfold acStep
        rcases max_choice |g.b| (max |g.g| (max |g.r| m)) with h1 | h1
        · exact Or.inl h1
        · rcases max_choice |g.g| (max |g.r| m) with h2 | h2
          · rw [h1, h2]; exact Or.inr (Or.inl rfl)
          · rcases max_choice |g.r| m with h3 | h3
            · rw [h1, h2, h3]; exact Or.inr (Or.inr (Or.inl rfl))
            · rw [h1, h2, h3]; exact Or.inr (Or.inr (Or.inr rfl))
      rw [h]
      rcases hcases with h1 | h1 | h1 | h1
      · exact Or.inr ⟨g, List.mem_cons_self _ _, Or.inr (Or.inr h1)⟩
      · exact Or.inr ⟨g, List.mem_cons_self _ _, Or.inr (Or.inl h1)⟩
      · exact Or.inr ⟨g, List.mem_cons_self _ _, Or.inl h1⟩
      · exact Or.inl h1
    · exact Or.inr ⟨f, List.mem_cons_of_mem _ hf, hc⟩

/-- C4: when `w·h = 1` the scale digit is 0 and the scale value `max` is 1;
otherwise `actualMax` is the maximum absolute value over all AC channels
(an upper bound that is attained unless all channels vanish), the quantised
scale digit is `clamp(0, 82, floor(actualMax·166 − 0.5))` and lies in
`[0, 82]`, and `max = (quantisedMax+1)/166`, which is strictly above the
bucket value `quantisedMax/166`. -/
theorem scale_quantisation (img : Img) (w h : ℕ)
    (hw1 : 1 ≤ w) (hw9 : w ≤ 9) (hh1 : 1 ≤ h) (hh9 : h ≤ 9) :
    (w * h = 1 →
      scaleDigitOf (acFactors img w h) = 0 ∧ maxValOf (acFactors img w h) = 1) ∧
    (1 < w * h →
      (∀ f ∈ acFactors img w h,
        |f.r| ≤ actualMaxOf (acFactors img w h) ∧
        |f.g| ≤ actualMaxOf (acFactors img w h) ∧
        |f.b| ≤ actualMaxOf (acFactors img w h)) ∧
      (actualMaxOf (acFactors img w h) = 0 ∨ ∃ f ∈ acFactors img w h,
        actualMaxOf (acFactors img w h) = |f.r| ∨
        actualMaxOf (acFactors img w h) = |f.g| ∨
        actualMaxOf (acFactors img w h) = |f.b|) ∧
      scaleDigitOf (acFactors img w h)
        = (trunc (clamp 0 82 ((⌊actualMaxOf (acFactors img w h) * 166 - 0.5⌋ : ℤ) : ℝ))).toNat ∧
      scaleDigitOf (acFactors img w h) ≤ 82 ∧
      maxValOf (acFactors img w h) = ((quantisedMaxOf (acFactors img w h) : ℝ) + 1) / 166 ∧
      ((quantisedMaxOf (acFactors img w h) : ℝ)) / 166 < maxValOf (acFactors img w h)) := by
  have hlen : (acFactors img w h).length = w * h - 1 := acFactors_length img w h
  constructor
  · intro h1
    have hz : ¬ 0 < (acFactors img w h).length := by omega
    unfold scaleDigitOf maxValOf
    rw [if_neg hz, if_neg hz]
    exact ⟨rfl, rfl⟩
  · intro h2
    have hp : 0 < (acFactors img w h).length := by omega
    refine ⟨fun f hf => foldl_acStep_ub _ 0 f hf, foldl_acStep_mem _ 0, ?_, ?_, ?_, ?_⟩
    · unfold scaleDigitOf
      rw [if_pos hp]
      rfl
    · unfold scaleDigitOf
      rw [if_pos hp]
      exact trunc_clamp_toNat_le 82 82 _ (by norm_num)
    · unfold maxValOf
      rw [if_pos hp]
    · unfold maxValOf
      rw [if_pos hp]
      exact (div_lt_div_iff_of_pos_right (by norm_num)).mpr (by linarith)

/-- C4 (witness). -/
theorem scale_quantisation_witness :
    (1 * 1 = 1 →
      scaleDigitOf (acFactors constImg 1 1) = 0 ∧ maxValOf (acFactors constImg 1 1) = 1) ∧
    (1 < 1 * 1 →
      (∀ f ∈ acFactors constImg 1 1,
        |f.r| ≤ actualMaxOf (acFactors constImg 1 1) ∧
        |f.g| ≤ actualMaxOf (acFactors constImg 1 1) ∧
        |f.b| ≤ actualMaxOf (acFactors constImg 1 1)) ∧
      (actualMaxOf (acFactors constImg 1 1) = 0 ∨ ∃ f ∈ acFactors constImg 1 1,
        actualMaxOf (acFactors constImg 1 1) = |f.r| ∨
        actualMaxOf (acFactors constImg 1 1) = |f.g| ∨
        actualMaxOf (acFactors constImg 1 1) = |f.b|) ∧
      scaleDigitOf (acFactors constImg 1 1)
        = (trunc (clamp 0 82 ((⌊actualMaxOf (acFactors constImg 1 1) * 166 - 0.5⌋ : ℤ) : ℝ))).toNat ∧
      scaleDigitOf (acFactors constImg 1 1) ≤ 82 ∧
      maxValOf (acFactors constImg 1 1) = ((quantisedMaxOf (acFactors constImg 1 1) : ℝ) + 1) / 166 ∧
      ((quantisedMaxOf (acFactors constImg 1 1) : ℝ)) / 166 < maxValOf (acFactors constImg 1 1)) :=
  scale_quantisation constImg 1 1 (by norm_num) (by norm_num) (by norm_num) (by norm_num)

/-! Claim C6. -/

theorem linearSRGB_eq_toGammaSpec (v0 : ℝ) : linearSRGB v0 = toGammaSpec v0 := by
  have hv0 : 0 ≤ clamp 0 1 v0 := clamp_zero_nonneg 1 v0
  have hv1 : clamp 0 1 v0 ≤ 1 := max_le (by norm_num) (min_le_left _ _)
  simp only [linearSRGB, toGammaSpec]
  set v := clamp 0 1 v0 with hvdef
  by_cases hbr : v ≤ 0.0031308
  · rw [if_pos hbr, if_pos hbr]
    set y := v * 12.92 * 255 + 0.5 with hydef
    have hy0 : (0 : ℝ) ≤ y := by rw [hydef]; nlinarith
    have hy255 : y ≤ 255 := by rw [hydef]; nlinarith
    have hclamp : clamp 0 255 y = y := by
      unfold clamp
      rw [min_eq_right hy255, max_eq_right hy0]
    have htr : trunc y = ⌊y⌋ := by unfold trunc; rw [if_neg (not_lt.mpr hy0)]
    have hfl0 : (0 : ℤ) ≤ ⌊y⌋ := Int.le_floor.mpr (by exact_mod_cast hy0)
    have hfl255 : ⌊y⌋ ≤ 255 := by
      have h := Int.floor_mono hy255
      simpa using h
    rw [hclamp, htr, max_eq_right hfl0, min_eq_right hfl255]
  · rw [if_neg hbr, if_neg hbr]
    set inner := 1.055 * v ^ ((1 : ℝ) / 2.4) - 0.055 with hidef
    have hrp : v ^ ((1 : ℝ) / 2.4) ≤ 1 := Real.rpow_le_one hv0 hv1 (by norm_num)
    have hinner1 : inner ≤ 1 := by rw [hidef]; nlinarith
    clear_value inner
    by_cases hin : 0 ≤ inner
    · have hclamp : clamp 0 255 inner = inner := by
        unfold clamp
        rw [min_eq_right (by linarith : inner ≤ 255), max_eq_right hin]
      rw [hclamp]
      set y := inner * 255 + 0.5 with hydef
      have hy0 : (0 : ℝ) ≤ y := by rw [hydef]; nlinarith
      have hylt : y < 256 := by rw [hydef]; nlinarith
      have htr : trunc y = ⌊y⌋ := by unfold trunc; rw [if_neg (not_lt.mpr hy0)]
      have hfl0 : (0 : ℤ) ≤ ⌊y⌋ := Int.le_floor.mpr (by exact_mod_cast hy0)
      have hfl255 : ⌊y⌋ ≤ 255 := by
        have h : ⌊y⌋ < 256 := Int.floor_lt.mpr (by exact_mod_cast hylt)
        omega
      rw [htr, max_eq_right hfl0, min_eq_right hfl255]
    · push_neg at hin
      have hclamp : clamp 0 255 inner = 0 := by
        unfold clamp
        rw [min_eq_right (by linarith : inner ≤ 255)]
        exact max_eq_left (le_of_lt hin)
      rw [hclamp]
      have h05 : trunc ((0 : ℝ) * 255 + 0.5) = 0 := by
        unfold trunc
        rw [if_neg (by norm_num)]
        rw [Int.floor_eq_zero_iff]
        constructor <;> norm_num
      have hylt : inner * 255 + 0.5 < 1 := by nlinarith
      have htle : trunc (inner * 255 + 0.5) ≤ 0 := by
        unfold trunc
        split_ifs with hneg
        · exact Int.ceil_le.mpr (by exact_mod_cast le_of_lt hneg)
        · push_neg at hneg
          have h : ⌊inner * 255 + 0.5⌋ < 1 := Int.floor_lt.mpr (by exact_mod_cast hylt)
          omega
      rw [h05, max_eq_left htle, min_eq_right (by norm_num : (0 : ℤ) ≤ 255)]

theorem linearSRGB_le_255 (v : ℝ) : linearSRGB v ≤ 255 := by
  rw [linearSRGB_eq_toGammaSpec]
  simp only [toGammaSpec]
  exact Int.toNat_le.mpr (by exact_mod_cast min_le_left _ _)

theorem lor_lt_two_pow_24 (x y : ℕ) (hx : x < 2 ^ 24) (hy : y < 2 ^ 24) :
    x ||| y < 2 ^ 24 := by
  have h := Nat.bitwise_lt_two_pow (f := or) hx hy
  simpa [Nat.lor] using h

/-- C6: the DC term converts each channel's linear value to a gamma byte —
`linear.sRGB()` agrees pointwise with the spec's `toGamma` (input clamped to
`[0,1]`, piecewise formula with threshold 0.0031308, result clamped to
`[0,255]`) — and packs the three bytes as `(R<<16)|(G<<8)|B`, which always
lies in `[0, 2²⁴−1]`. -/
theorem encodeDC_gamma_packing :
    (∀ v : ℝ, linearSRGB v = toGammaSpec v) ∧ ∀ dc : factor, encodeDC dc ≤ 2 ^ 24 - 1 := by
  refine ⟨linearSRGB_eq_toGammaSpec, fun dc => ?_⟩
  have hr := linearSRGB_le_255 dc.r
  have hg := linearSRGB_le_255 dc.g
  have hb := linearSRGB_le_255 dc.b
  have h1 : linearSRGB dc.r <<< 16 < 2 ^ 24 := by
    rw [Nat.shiftLeft_eq]
    calc linearSRGB dc.r * 2 ^ 16 ≤ 255 * 2 ^ 16 := Nat.mul_le_mul_right _ hr
      _ < 2 ^ 24 := by norm_num
  have h2 : linearSRGB dc.g <<< 8 < 2 ^ 24 := by
    rw [Nat.shiftLeft_eq]
    calc linearSRGB dc.g * 2 ^ 8 ≤ 255 * 2 ^ 8 := Nat.mul_le_mul_right _ hg
      _ < 2 ^ 24 := by norm_num
  have h3 : linearSRGB dc.b < 2 ^ 24 := by omega
  have h4 : encodeDC dc < 2 ^ 24 :=
    lor_lt_two_pow_24 _ _ (lor_lt_two_pow_24 _ _ h1 h2) h3
  omega

/-- C2 (witness). -/
theorem encode_length_eq_encodedLen_witness :
    ∃ l, Encode constImg 2 2 = some l ∧ l.length = EncodedLen 2 2 ∧
      EncodedLen 2 2 = 1 + 1 + 4 + 2 * (2 * 2 - 1) :=
  encode_length_eq_encodedLen constImg 2 2 (by norm_num [constImg]) (by norm_num [constImg])
    (by norm_num) (by norm_num) (by norm_num) (by norm_num)

end blurhash

namespace blurhash

/-! Claim C7. -/

/-- C7: under valid inputs, the output of `Append` is the concatenation, in
fixed order, of big-endian base-83 digit groups (each digit obtained by
repeated integer division, most significant first): the packed shape
`(h−1)·9+(w−1)` as one digit, the scale index as one digit, the DC as four
digits, and each AC coefficient as two digits; the packed shape is at most
80 (so `w = h = 9`, which packs to 80, still fits one digit) and the scale
digit is at most 82. -/
theorem append_output_format (dst : List ℕ) (img : Img) (w h : ℕ)
    (hw1 : 1 ≤ w) (hw9 : w ≤ 9) (hh1 : 1 ≤ h) (hh9 : h ≤ 9) :
    Append dst img w h = some (
      dst ++ [base83char ((h - 1) * 9 + (w - 1))]
          ++ [base83char (scaleDigitOf (acFactors img w h))]
          ++ digits4 (encodeDC (dcFactor img w h))
          ++ (acFactors img w h).flatMap
              (fun f => digits2 (encodeAC f (maxValOf (acFactors img w h))))) ∧
    (h - 1) * 9 + (w - 1) ≤ 80 ∧
    scaleDigitOf (acFactors img w h) ≤ 82 ∧
    (9 - 1) * 9 + (9 - 1) = 80 := by
  have hshape : (h - 1) * 9 + (w - 1) ≤ 80 := by omega
  have hsd : scaleDigitOf (acFactors img w h) ≤ 82 := by
    unfold scaleDigitOf
    split_ifs
    · exact trunc_clamp_toNat_le 82 82 _ (by norm_num)
    · omega
  refine ⟨?_, hshape, hsd, by norm_num⟩
  rw [append_valid dst img w h hw1 hw9 hh1 hh9, appendBody_concat,
    Nat.mod_eq_of_lt (by omega : (h - 1) * 9 + (w - 1) < 83),
    Nat.mod_eq_of_lt (by omega : scaleDigitOf (acFactors img w h) < 83)]

/-- C7 (witness). -/
theorem append_output_format_witness :
    Append [] constImg 1 1 = some (
      [] ++ [base83char ((1 - 1) * 9 + (1 - 1))]
         ++ [base83char (scaleDigitOf (acFactors constImg 1 1))]
         ++ digits4 (encodeDC (dcFactor constImg 1 1))
         ++ (acFactors constImg 1 1).flatMap
             (fun f => digits2 (encodeAC f (maxValOf (acFactors constImg 1 1))))) ∧
    (1 - 1) * 9 + (1 - 1) ≤ 80 ∧
    scaleDigitOf (acFactors constImg 1 1) ≤ 82 ∧
    (9 - 1) * 9 + (9 - 1) = 80 :=
  append_output_format [] constImg 1 1 (by norm_num) (by norm_num) (by norm_num) (by norm_num)

/-! Claim C8. -/

theorem appendBody_prefix (dst : List ℕ) (img : Img) (w h : ℕ) :
    appendBody dst img w h = dst ++ appendBody [] img w h := by
  rw [appendBody_concat, appendBody_concat]
  simp [List.append_assoc]

/-- C8: `Append dst img w h` returns a buffer whose first `len(dst)` bytes are
the original `dst` and whose remaining bytes are exactly the bytes of
`Encode img w h`. -/
theorem append_is_encode_suffix (dst : List ℕ) (img : Img) (w h : ℕ)
    (hiw : 0 < img.width) (hih : 0 < img.height)
    (hw1 : 1 ≤ w) (hw9 : w ≤ 9) (hh1 : 1 ≤ h) (hh9 : h ≤ 9) :
    ∃ e, Encode img w h = some e ∧ Append dst img w h = some (dst ++ e) := by
  refine ⟨appendBody [] img w h, ?_, ?_⟩
  · unfold Encode
    exact append_valid [] img w h hw1 hw9 hh1 hh9
  · rw [append_valid dst img w h hw1 hw9 hh1 hh9, appendBody_prefix]

/-- C8 (witness). -/
theorem append_is_encode_suffix_witness :
    ∃ e, Encode constImg 3 2 = some e ∧
      Append [7, 7] constImg 3 2 = some ([7, 7] ++ e) :=
  append_is_encode_suffix [7, 7] constImg 3 2 (by norm_num [constImg]) (by norm_num [constImg])
    (by norm_num) (by norm_num) (by norm_num) (by norm_num)

/-! Claim C10. -/

/-- C10: the pixel loop of `Append` reads the accessor only at absolute
coordinates `(x, y)` with `0 ≤ x < Dx`, `0 ≤ y < Dy` — never offset by the
bounds minimum — so the result depends only on the accessor's values on that
rectangle; consequently, for an image whose bounds minimum is not `(0, 0)`,
the set of coordinates read differs from the image's own coordinate
rectangle. -/
theorem append_absolute_coordinates :
    (∀ (img1 img2 : Img) (dst : List ℕ) (w h : ℕ),
      img1.width = img2.width → img1.height = img2.height →
      (∀ x y : ℕ, x < img1.width → y < img1.height →
        img1.At (x : ℤ) (y : ℤ) = img2.At (x : ℤ) (y : ℤ)) →
      Append dst img1 w h = Append dst img2 w h) ∧
    (∀ img : Img, 0 < img.width → 0 < img.height →
      (img.minX ≠ 0 ∨ img.minY ≠ 0) → queriedSet img ≠ rectSet img) := by
  constructor
  · intro img1 img2 dst w h hw hh hAt
    have hfac : ∀ k, factorAcc img1 w k = factorAcc img2 w k := by
      intro k
      refine factor.ext ?_ ?_ ?_ <;>
      · simp only [factorAcc, basisAt, hw, hh]
        refine Finset.sum_congr rfl fun y hy => Finset.sum_congr rfl fun x hx => ?_
        have hx2 : x < img1.width := by rw [hw]; exact Finset.mem_range.mp hx
        have hy2 : y < img1.height := by rw [hh]; exact Finset.mem_range.mp hy
        rw [hAt x y hx2 hy2]
    have hdc : dcFactor img1 w h = dcFactor img2 w h := by
      unfold dcFactor
      rw [hfac 0, hw, hh]
    have hac : acFactors img1 w h = acFactors img2 w h := by
      unfold acFactors
      rw [hw, hh]
      exact List.map_congr_left fun t _ => by rw [hfac (t + 1)]
    have hbody : appendBody dst img1 w h = appendBody dst img2 w h := by
      simp only [appendBody, hdc, hac]
    simp only [Append, hbody]
  · intro img hiw hih hne heq
    rw [Set.ext_iff] at heq
    have h1 := heq (0, 0)
    have h2 := heq (img.minX, img.minY)
    simp only [queriedSet, rectSet, Set.mem_setOf_eq] at h1 h2
    omega

/-- C10 (witness). -/
theorem append_absolute_coordinates_witness :
    Append [] constImg 1 1 = Append [] constImg 1 1 ∧
    queriedSet shiftedImg ≠ rectSet shiftedImg :=
  ⟨append_absolute_coordinates.1 constImg constImg [] 1 1 rfl rfl (fun _ _ _ _ => rfl),
   append_absolute_coordinates.2 shiftedImg (by norm_num [shiftedImg])
     (by norm_num [shiftedImg]) (Or.inl (by norm_num [shiftedImg]))⟩

/-! Claim C9. -/

/-- C9 (code bug): the specialized `*image.YCbCr` fast path is not equivalent
to the generic `img.At(x, y).RGBA()` query.  On a legal 4:2:2 image with
bounds `Rect(-1, 0, 1, 1)` (as laid out by `image.NewYCbCr`), at the
in-bounds coordinate `(0, 0)` the fast path computes chroma index
`(0 >> 1) - (-1 >> 1) = 1` — out of range for the one-byte chroma planes, a
runtime panic — while the generic query computes `COffset = 0/2 - (-1)/2 = 0`
and returns the mid-gray sample. -/
theorem fastAccessor_ycbcr_divergence :
    (goimage.badImg422.minX ≤ 0 ∧ (0 : ℤ) < goimage.badImg422.maxX ∧
     goimage.badImg422.minY ≤ 0 ∧ (0 : ℤ) < goimage.badImg422.maxY) ∧
    goimage.fastAtYCbCr goimage.badImg422 0 0 = none ∧
    goimage.atYCbCr goimage.badImg422 0 0 = some ⟨25700, 25700, 25700, 65535⟩ := by
  decide

end blurhash
